import Mathlib

/-!
Verification of the RockStone/hpp-part2 notebooks.

The notebooks demonstrate Dask patterns on toy algorithms.  The
specifiable fragments are:

* the completion-driven random-walk work loop (`as_completed` with
  conditional resubmission), generalized by the specification into a
  `run(seed_items, step, should_continue)` contract — modelled here as a
  schedule-indexed transition system over an explicit pending set;
* the `borrow` method of the `Bank` actor;
* the Monte Carlo π `sample` function;
* the diamond-price `threshold` classifier.

Real-number quantities (random coordinates, prices, walk positions) are
modelled over `ℚ`; the properties proved are order-theoretic and hold in
any linearly ordered field.
-/

namespace HppPart2

/-- A terminal outcome of one logical task: either a normal terminal
result or a tagged per-task error, both carrying the identity of the task.
Modelled from the spec: §4.1 failure semantics — the generalized loop is
not implemented in the repository (only the notebook `as_completed` demo
is), and the spec requires a step failure to be surfaced as a
distinguished terminal outcome for the identity of that task. -/
inductive Outcome (α ε : Type) where
  | ok : Nat → α → Outcome α ε
  | err : Nat → ε → Outcome α ε
deriving DecidableEq

/-- The task identity an outcome is attributed to. -/
def Outcome.tid {α ε : Type} : Outcome α ε → Nat
  | .ok t _ => t
  | .err t _ => t

/-- State of the completion-driven work loop: the log of observed step
completions (task ids, in observation order), the emitted terminal
outcomes (in emission order), and the PendingSet of in-flight
submissions, each a pair of task identity and submitted payload. -/
structure LoopState (α ε : Type) where
  log : List Nat
  outs : List (Outcome α ε)
  pending : List (Nat × α)
deriving DecidableEq

variable {α ε : Type} (step : Nat → α → Except ε α) (sc : α → Bool)

/-- Modelled from the spec: processing of one completed submission
(§4.1 algorithm steps 2b–2c and §7 failure semantics): the completed
pair is removed from the pending set and its observation logged; a step
error is emitted as a tagged error outcome; a successful result is
resubmitted (identity preserved) when `should_continue` holds, and is
emitted as a terminal outcome otherwise. -/
def processOne (p : Nat × α) (rest : List (Nat × α)) (lg : List Nat)
    (os : List (Outcome α ε)) : LoopState α ε :=
  match step p.1 p.2 with
  | .error er => ⟨lg ++ [p.1], os ++ [.err p.1 er], rest⟩
  | .ok r =>
    if sc r then ⟨lg ++ [p.1], os, rest ++ [(p.1, r)]⟩
    else ⟨lg ++ [p.1], os ++ [.ok p.1 r], rest⟩

/-- Modelled from the spec: one iteration of the loop body.  The worker
pool is abstracted by the scheduler choice `e`: among the pending
submissions, the one at index `min e (pending.length - 1)` is the next
to complete (any pending submission can be made the next completion by a
suitable `e`, capturing arbitrary completion order).  With no pending
submission the loop is finished and the state is left unchanged. -/
def loopTick (e : Nat) (s : LoopState α ε) : LoopState α ε :=
  match s with
  | ⟨lg, os, []⟩ => ⟨lg, os, []⟩
  | ⟨lg, os, q :: ps⟩ =>
    processOne step sc ((q :: ps).getD (min e ps.length) q)
      ((q :: ps).eraseIdx (min e ps.length)) lg os

/-- Modelled from the spec: the loop driven by a completion schedule,
one tick per schedule entry. -/
def runLoop (sched : List Nat) (s : LoopState α ε) : LoopState α ε :=
  sched.foldl (fun t e => loopTick step sc e t) s

/-- Modelled from the spec: `run(seed_items, step, should_continue)`
(§4.1): submit every seed item, then drain completions.  The run has
ended when the pending set is empty; the emitted outcomes are then the
finite output of the loop. -/
def run (sched : List Nat) (seeds : List (Nat × α)) : LoopState α ε :=
  runLoop step sc sched ⟨[], [], seeds⟩

/-- The deterministic per-task chain: starting from payload `x` of task
`tid`, invoke `step` repeatedly while `should_continue` holds, within
`fuel` invocations.  Returns the number of step invocations together
with the terminal outcome, or `none` if the chain does not terminate
within `fuel` invocations. -/
def chainRun (tid : Nat) : Nat → α → Option (Nat × Outcome α ε)
  | 0, _ => none
  | fuel + 1, x =>
    match step tid x with
    | .error er => some (1, .err tid er)
    | .ok r =>
      if sc r then (chainRun tid fuel r).map (fun q => (q.1 + 1, q.2))
      else some (1, .ok tid r)

/-- The j-fold iterate of the step function of one task: `stepN tid j x` is the
payload after `j` successful step invocations from `x`, or `none` if
some invocation fails. -/
def stepN (tid : Nat) : Nat → α → Option α
  | 0, x => some x
  | n + 1, x =>
    match step tid x with
    | .error _ => none
    | .ok r => stepN tid n r

/-- Outcome of the very first step invocation of a task. -/
def firstOutcome (tid : Nat) (x : α) : Outcome α ε :=
  match step tid x with
  | .error er => .err tid er
  | .ok r => .ok tid r

/-- The sub-sequence of emitted outcomes attributed to task `t` — what
the consumer of the output sequence sees for that task. -/
def outsFor (t : Nat) (l : List (Outcome α ε)) : List (Outcome α ε) :=
  l.filter (fun o => o.tid == t)

/-- The `Bank` actor from the notebook: a mutable `funds` balance.
Python integer funds are modelled as `Int`. -/
structure Bank where
  funds : Int
deriving DecidableEq

/-- Bank borrow from the notebook: `loan = min(amount, self.funds);
self.funds -= loan; return loan`, modelled as returning the loan
together with the updated bank. -/
def Bank.borrow (b : Bank) (amount : Int) : Int × Bank :=
  let loan := min amount b.funds
  (loan, ⟨b.funds - loan⟩)

/-- Folding a sequence of borrow calls over a bank. -/
def Bank.borrowAll (b : Bank) : List Int → Bank
  | [] => b
  | a :: rest => ((b.borrow a).2).borrowAll rest

/-- The Monte Carlo `sample` function from the notebook; the random
draws `x, y ~ Uniform[0, 1]` are modelled as explicit inputs, and the
returned indicator is `1` iff the point lies inside the unit circle. -/
def sample (x y : ℚ) : Nat :=
  let d := x * x + y * y
  if d < 1 then 1 else 0

/-- The π estimate `4 * sum(results) / len(results)` formed from a list
of sample indicators. -/
def piEstimate (results : List Nat) : ℚ :=
  4 * (results.sum : ℚ) / (results.length : ℚ)

/-- Price thresholds from the notebook. -/
def THRESHOLDS : ℚ × ℚ := (1200, 11000)

/-- The `threshold` classifier from the notebook; prices are modelled as
rationals. -/
def threshold (p : ℚ) : Nat :=
  if p < THRESHOLDS.1 then 0
  else if p > THRESHOLDS.2 then 2
  else 1

/-! Helper lemmas about list selection used by the loop model. -/

theorem getD_cons_eraseIdx_perm {β : Type} :
    ∀ (l : List β) (d : β) (i : Nat), i < l.length →
      List.Perm (l.getD i d :: l.eraseIdx i) l := by
  intro l
  induction l with
  | nil => intro d i h; simp at h
  | cons a t ih =>
    intro d i h
    cases i with
    | zero => simp
    | succ j =>
      have hj : j < t.length := by simpa using h
      have h1 : List.Perm (t.getD j d :: a :: t.eraseIdx j)
          (a :: (t.getD j d :: t.eraseIdx j)) :=
        List.Perm.swap a (t.getD j d) (t.eraseIdx j)
      simp only [List.getD_cons_succ, List.eraseIdx_cons_succ]
      exact h1.trans ((ih d j hj).cons a)

theorem getD_last {β : Type} (ps : List β) (q d : β) :
    (ps ++ [q]).getD ps.length d = q := by
  induction ps with
  | nil => rfl
  | cons a t ih => simpa using ih

theorem eraseIdx_last {β : Type} (ps : List β) (q : β) :
    (ps ++ [q]).eraseIdx ps.length = ps := by
  induction ps with
  | nil => rfl
  | cons a t ih => simp [ih]

theorem min_sel_lt (e : Nat) {β : Type} (q : β) (ps : List β) :
    min e ps.length < (q :: ps).length := by
  simpa using Nat.lt_succ_of_le (Nat.min_le_right e ps.length)

/-! Structural lemmas about the loop. -/

theorem runLoop_nil (s : LoopState α ε) : runLoop step sc [] s = s := rfl

theorem runLoop_cons (e : Nat) (sched : List Nat) (s : LoopState α ε) :
    runLoop step sc (e :: sched) s =
      runLoop step sc sched (loopTick step sc e s) := rfl

theorem runLoop_append (s1 s2 : List Nat) (s : LoopState α ε) :
    runLoop step sc (s1 ++ s2) s = runLoop step sc s2 (runLoop step sc s1 s) :=
  List.foldl_append ..

theorem loopTick_nil (e : Nat) (lg : List Nat) (os : List (Outcome α ε)) :
    loopTick step sc e ⟨lg, os, []⟩ = ⟨lg, os, []⟩ := rfl

theorem loopTick_cons (e : Nat) (lg : List Nat) (os : List (Outcome α ε))
    (q : Nat × α) (ps : List (Nat × α)) :
    loopTick step sc e ⟨lg, os, q :: ps⟩ =
      processOne step sc ((q :: ps).getD (min e ps.length) q)
        ((q :: ps).eraseIdx (min e ps.length)) lg os := rfl

theorem processOne_spec (p : Nat × α) (rest : List (Nat × α)) (lg : List Nat)
    (os : List (Outcome α ε)) :
    (∃ er, step p.1 p.2 = .error er ∧
      processOne step sc p rest lg os =
        ⟨lg ++ [p.1], os ++ [.err p.1 er], rest⟩) ∨
    (∃ r, step p.1 p.2 = .ok r ∧ sc r = true ∧
      processOne step sc p rest lg os =
        ⟨lg ++ [p.1], os, rest ++ [(p.1, r)]⟩) ∨
    (∃ r, step p.1 p.2 = .ok r ∧ sc r = false ∧
      processOne step sc p rest lg os =
        ⟨lg ++ [p.1], os ++ [.ok p.1 r], rest⟩) := by
  rcases hs : step p.1 p.2 with er | r
  · exact Or.inl ⟨er, rfl, by simp [processOne, hs]⟩
  · cases hc : sc r with
    | true => exact Or.inr (Or.inl ⟨r, rfl, hc, by simp [processOne, hs, hc]⟩)
    | false => exact Or.inr (Or.inr ⟨r, rfl, hc, by simp [processOne, hs, hc]⟩)

/-- Identity conservation: in a run that has ended, the multiset of
emitted outcome identities is exactly the multiset of identities of the
initial pending set (together with previously emitted outcomes). -/
theorem runLoop_tids (sched : List Nat) :
    ∀ s : LoopState α ε, (runLoop step sc sched s).pending = [] →
      List.Perm ((runLoop step sc sched s).outs.map Outcome.tid)
        (s.outs.map Outcome.tid ++ s.pending.map Prod.fst) := by
  induction sched with
  | nil =>
    intro s h
    rw [runLoop_nil] at h ⊢
    simp [h]
  | cons e sched ih =>
    intro s h
    rw [runLoop_cons] at h ⊢
    rcases s with ⟨lg, os, pending⟩
    cases pending with
    | nil =>
      rw [loopTick_nil] at h ⊢
      simpa using ih ⟨lg, os, []⟩ h
    | cons q ps =>
      rw [loopTick_cons] at h ⊢
      have hperm := getD_cons_eraseIdx_perm (q :: ps) q (min e ps.length)
        (min_sel_lt e q ps)
      set p := (q :: ps).getD (min e ps.length) q with hp
      set rest := (q :: ps).eraseIdx (min e ps.length) with hrest
      have hpermf : List.Perm (p.1 :: rest.map Prod.fst)
          ((q :: ps).map Prod.fst) := by
        simpa using hperm.map Prod.fst
      rcases processOne_spec step sc p rest lg os with
        ⟨er, hs, he⟩ | ⟨r, hs, hc, he⟩ | ⟨r, hs, hc, he⟩
      · rw [he] at h ⊢
        have := ih ⟨lg ++ [p.1], os ++ [.err p.1 er], rest⟩ h
        simp only [List.map_append] at this ⊢
        refine this.trans ?_
        simp only [List.append_assoc]
        refine List.Perm.append_left _ ?_
        simpa [Outcome.tid] using hpermf
      · rw [he] at h ⊢
        have := ih ⟨lg ++ [p.1], os, rest ++ [(p.1, r)]⟩ h
        simp only [List.map_append] at this ⊢
        refine this.trans ?_
        refine List.Perm.append_left _ ?_
        refine (List.perm_append_singleton p.1 (rest.map Prod.fst)).trans ?_
        exact hpermf
      · rw [he] at h ⊢
        have := ih ⟨lg ++ [p.1], os ++ [.ok p.1 r], rest⟩ h
        simp only [List.map_append] at this ⊢
        refine this.trans ?_
        simp only [List.append_assoc]
        refine List.Perm.append_left _ ?_
        simpa [Outcome.tid] using hpermf

/-- One tick preserves distinctness of the pending identities: no task
ever acquires a second outstanding submission. -/
theorem loopTick_nodup (e : Nat) (s : LoopState α ε)
    (h : (s.pending.map Prod.fst).Nodup) :
    ((loopTick step sc e s).pending.map Prod.fst).Nodup := by
  rcases s with ⟨lg, os, pending⟩
  cases pending with
  | nil => simpa [loopTick_nil] using h
  | cons q ps =>
    rw [loopTick_cons]
    have hperm := getD_cons_eraseIdx_perm (q :: ps) q (min e ps.length)
      (min_sel_lt e q ps)
    set p := (q :: ps).getD (min e ps.length) q with hp
    set rest := (q :: ps).eraseIdx (min e ps.length) with hrest
    have hpermf : List.Perm (p.1 :: rest.map Prod.fst)
        ((q :: ps).map Prod.fst) := by
      simpa using hperm.map Prod.fst
    have hnd : (p.1 :: rest.map Prod.fst).Nodup := hpermf.nodup_iff.mpr h
    have hnotin : p.1 ∉ rest.map Prod.fst := (List.nodup_cons.mp hnd).1
    have hndrest : (rest.map Prod.fst).Nodup := (List.nodup_cons.mp hnd).2
    rcases processOne_spec step sc p rest lg os with
      ⟨er, hs, he⟩ | ⟨r, hs, hc, he⟩ | ⟨r, hs, hc, he⟩
    · rw [he]; exact hndrest
    · rw [he]
      simp only [List.map_append]
      exact List.nodup_append.mpr ⟨hndrest, by simp, by
        intro t ht hmem
        simp at hmem
        exact hnotin (hmem ▸ ht)⟩
    · rw [he]; exact hndrest

theorem runLoop_nodup (sched : List Nat) :
    ∀ s : LoopState α ε, (s.pending.map Prod.fst).Nodup →
      ((runLoop step sc sched s).pending.map Prod.fst).Nodup := by
  induction sched with
  | nil => intro s h; exact h
  | cons e sched ih =>
    intro s h
    rw [runLoop_cons]
    exact ih _ (loopTick_nodup step sc e s h)

/-! The deterministic per-task chain is monotone and unique in its fuel. -/

theorem chainRun_mono (tid : Nat) :
    ∀ f g : Nat, f ≤ g → ∀ (x : α) (v : Nat × Outcome α ε),
      chainRun step sc tid f x = some v → chainRun step sc tid g x = some v := by
  intro f
  induction f with
  | zero => intro g _ x v h; simp [chainRun] at h
  | succ f ih =>
    intro g hg x v h
    obtain ⟨g, rfl⟩ : ∃ g', g = g' + 1 := ⟨g - 1, by omega⟩
    rcases hs : step tid x with er | r
    · simp only [chainRun, hs] at h ⊢; exact h
    · cases hc : sc r with
      | false => simp only [chainRun, hs, hc] at h ⊢; simpa using h
      | true =>
        simp only [chainRun, hs, hc, if_true] at h ⊢
        rw [Option.map_eq_some'] at h ⊢
        obtain ⟨w, hw, hv⟩ := h
        exact ⟨w, ih g (by omega) r w hw, hv⟩

theorem chainRun_unique (tid : Nat) (f g : Nat) (x : α)
    (v w : Nat × Outcome α ε) (hv : chainRun step sc tid f x = some v)
    (hw : chainRun step sc tid g x = some w) : v = w := by
  rcases Nat.le_total f g with h | h
  · have hv2 := chainRun_mono step sc tid f g h x v hv
    rw [hv2] at hw
    exact Option.some.inj hw
  · have hw2 := chainRun_mono step sc tid g f h x w hw
    rw [hw2] at hv
    exact (Option.some.inj hv).symm

/-- Per-task refinement: in a run that has ended, provided the seed
identities are distinct, every pending task is driven along its
deterministic step chain: its consumer-visible output is exactly the one
terminal outcome of the chain, and the number of its observed step
completions is exactly the length of the chain.  Tasks not in the pending set
are untouched. -/
theorem runLoop_resolve (sched : List Nat) :
    ∀ s : LoopState α ε, (s.pending.map Prod.fst).Nodup →
      (runLoop step sc sched s).pending = [] →
      (∀ p ∈ s.pending, ∃ f n o, chainRun step sc p.1 f p.2 = some (n, o) ∧
          outsFor p.1 (runLoop step sc sched s).outs =
            outsFor p.1 s.outs ++ [o] ∧
          (runLoop step sc sched s).log.count p.1 = s.log.count p.1 + n) ∧
      (∀ t, t ∉ s.pending.map Prod.fst →
          outsFor t (runLoop step sc sched s).outs = outsFor t s.outs ∧
          (runLoop step sc sched s).log.count t = s.log.count t) := by
  induction sched with
  | nil =>
    intro s hnd h
    rw [runLoop_nil] at h ⊢
    constructor
    · intro p hp
      rw [h] at hp
      simp at hp
    · intro t _
      exact ⟨rfl, rfl⟩
  | cons e sched ih =>
    intro s hnd h
    rw [runLoop_cons] at h ⊢
    rcases s with ⟨lg, os, pending⟩
    cases pending with
    | nil =>
      rw [loopTick_nil] at h ⊢
      have := ih ⟨lg, os, []⟩ (by simp) h
      constructor
      · intro p hp; simp at hp
      · intro t _
        exact this.2 t (by simp)
    | cons q ps =>
      rw [loopTick_cons] at h ⊢
      have hperm := getD_cons_eraseIdx_perm (q :: ps) q (min e ps.length)
        (min_sel_lt e q ps)
      set p := (q :: ps).getD (min e ps.length) q with hp
      set rest := (q :: ps).eraseIdx (min e ps.length) with hrest
      have hpermf : List.Perm (p.1 :: rest.map Prod.fst)
          ((q :: ps).map Prod.fst) := by
        simpa using hperm.map Prod.fst
      have hnd2 : (p.1 :: rest.map Prod.fst).Nodup := hpermf.nodup_iff.mpr hnd
      have hnotin : p.1 ∉ rest.map Prod.fst := (List.nodup_cons.mp hnd2).1
      have hndrest : (rest.map Prod.fst).Nodup := (List.nodup_cons.mp hnd2).2
      rcases processOne_spec step sc p rest lg os with
        ⟨er, hs, he⟩ | ⟨r, hs, hc, he⟩ | ⟨r, hs, hc, he⟩
      · -- step failed: the task is emitted as a tagged error outcome
        rw [he] at h ⊢
        obtain ⟨ih1, ih2⟩ := ih ⟨lg ++ [p.1], os ++ [.err p.1 er], rest⟩
          hndrest h
        constructor
        · intro pp hpp
          have hpp2 : pp = p ∨ pp ∈ rest := by
            have := hperm.mem_iff.mpr hpp
            simpa using this
          rcases hpp2 with heq | hpp2
          · subst heq
            obtain ⟨hfil, hcnt⟩ := ih2 p.1 hnotin
            refine ⟨1, 1, .err p.1 er, by simp [chainRun, hs], ?_, ?_⟩
            · rw [hfil]
              simp [outsFor, Outcome.tid]
            · rw [hcnt]
              simp
          · have hne : pp.1 ≠ p.1 := by
              intro hcontra
              exact hnotin (hcontra ▸ List.mem_map_of_mem Prod.fst hpp2)
            obtain ⟨f, n, o, hch, hfil, hcnt⟩ := ih1 pp hpp2
            refine ⟨f, n, o, hch, ?_, ?_⟩
            · rw [hfil]
              simp [outsFor, Outcome.tid, hne, Ne.symm hne]
            · rw [hcnt]
              simp [hne]
        · intro t ht
          have htp : t ≠ p.1 ∧ t ∉ rest.map Prod.fst := by
            have hmemf := fun hmem => ht (hpermf.subset hmem)
            constructor
            · intro hcontra; exact hmemf (by simp [hcontra])
            · intro hcontra; exact hmemf (by simp [hcontra])
          obtain ⟨hfil, hcnt⟩ := ih2 t htp.2
          refine ⟨?_, ?_⟩
          · rw [hfil]
            simp [outsFor, Outcome.tid, htp.1, Ne.symm htp.1]
          · rw [hcnt]
            simp [htp.1]
      · -- should_continue holds: the task is resubmitted, nothing emitted
        rw [he] at h ⊢
        have hnd3 : ((rest ++ [(p.1, r)]).map Prod.fst).Nodup := by
          simp only [List.map_append]
          exact List.nodup_append.mpr ⟨hndrest, by simp, by
            intro t ht hmem
            simp at hmem
            exact hnotin (hmem ▸ ht)⟩
        obtain ⟨ih1, ih2⟩ := ih ⟨lg ++ [p.1], os, rest ++ [(p.1, r)]⟩ hnd3 h
        constructor
        · intro pp hpp
          have hpp2 : pp = p ∨ pp ∈ rest := by
            have := hperm.mem_iff.mpr hpp
            simpa using this
          rcases hpp2 with heq | hpp2
          · subst heq
            obtain ⟨f, n, o, hch, hfil, hcnt⟩ := ih1 (p.1, r) (by simp)
            refine ⟨f + 1, n + 1, o, ?_, ?_, ?_⟩
            · simp only [chainRun, hs, hc, if_true]
              rw [hch]
              rfl
            · simpa using hfil
            · rw [hcnt]
              simp
              omega
          · have hne : pp.1 ≠ p.1 := by
              intro hcontra
              exact hnotin (hcontra ▸ List.mem_map_of_mem Prod.fst hpp2)
            obtain ⟨f, n, o, hch, hfil, hcnt⟩ :=
              ih1 pp (List.mem_append_left _ hpp2)
            refine ⟨f, n, o, hch, by simpa using hfil, ?_⟩
            rw [hcnt]
            simp [hne]
        · intro t ht
          have htp : t ≠ p.1 ∧ t ∉ rest.map Prod.fst := by
            have hmemf := fun hmem => ht (hpermf.subset hmem)
            constructor
            · intro hcontra; exact hmemf (by simp [hcontra])
            · intro hcontra; exact hmemf (by simp [hcontra])
          obtain ⟨hfil, hcnt⟩ := ih2 t (by
            simp only [List.map_append]
            intro hcontra
            rcases List.mem_append.mp hcontra with hmem | hmem
            · exact htp.2 hmem
            · simp at hmem
              exact htp.1 hmem)
          refine ⟨by simpa using hfil, ?_⟩
          rw [hcnt]
          simp [htp.1]
      · -- should_continue fails: the task is emitted as a normal outcome
        rw [he] at h ⊢
        obtain ⟨ih1, ih2⟩ := ih ⟨lg ++ [p.1], os ++ [.ok p.1 r], rest⟩
          hndrest h
        constructor
        · intro pp hpp
          have hpp2 : pp = p ∨ pp ∈ rest := by
            have := hperm.mem_iff.mpr hpp
            simpa using this
          rcases hpp2 with heq | hpp2
          · subst heq
            obtain ⟨hfil, hcnt⟩ := ih2 p.1 hnotin
            refine ⟨1, 1, .ok p.1 r, by simp [chainRun, hs, hc], ?_, ?_⟩
            · rw [hfil]
              simp [outsFor, Outcome.tid]
            · rw [hcnt]
              simp
          · have hne : pp.1 ≠ p.1 := by
              intro hcontra
              exact hnotin (hcontra ▸ List.mem_map_of_mem Prod.fst hpp2)
            obtain ⟨f, n, o, hch, hfil, hcnt⟩ := ih1 pp hpp2
            refine ⟨f, n, o, hch, ?_, ?_⟩
            · rw [hfil]
              simp [outsFor, Outcome.tid, hne, Ne.symm hne]
            · rw [hcnt]
              simp [hne]
        · intro t ht
          have htp : t ≠ p.1 ∧ t ∉ rest.map Prod.fst := by
            have hmemf := fun hmem => ht (hpermf.subset hmem)
            constructor
            · intro hcontra; exact hmemf (by simp [hcontra])
            · intro hcontra; exact hmemf (by simp [hcontra])
          obtain ⟨hfil, hcnt⟩ := ih2 t htp.2
          refine ⟨?_, ?_⟩
          · rw [hfil]
            simp [outsFor, Outcome.tid, htp.1, Ne.symm htp.1]
          · rw [hcnt]
            simp [htp.1]

/-! Termination: a schedule exists that drains every terminating task. -/

theorem loopTick_last (e : Nat) (lg : List Nat) (os : List (Outcome α ε))
    (ps : List (Nat × α)) (q : Nat × α) (he : e = ps.length) :
    loopTick step sc e ⟨lg, os, ps ++ [q]⟩ = processOne step sc q ps lg os := by
  subst he
  cases ps with
  | nil => rfl
  | cons a t =>
    rw [show (a :: t) ++ [q] = a :: (t ++ [q]) from rfl, loopTick_cons]
    have hlen : (t ++ [q]).length = t.length + 1 := by simp
    have hmin : min (a :: t).length (t ++ [q]).length = t.length + 1 := by
      simp
    rw [hmin]
    have h1 : (a :: (t ++ [q])).getD (t.length + 1) a = q := by
      simpa using getD_last (a :: t) q a
    have h2 : (a :: (t ++ [q])).eraseIdx (t.length + 1) = a :: t := by
      simpa using eraseIdx_last (a :: t) q
    rw [h1, h2]

theorem chain_drain (tid : Nat) :
    ∀ (f : Nat) (x : α) (n : Nat) (o : Outcome α ε),
      chainRun step sc tid f x = some (n, o) →
      ∀ (ps : List (Nat × α)) (lg : List Nat) (os : List (Outcome α ε)),
        ∃ (sched : List Nat) (lg2 : List Nat) (os2 : List (Outcome α ε)),
          runLoop step sc sched ⟨lg, os, ps ++ [(tid, x)]⟩ = ⟨lg2, os2, ps⟩ := by
  intro f
  induction f with
  | zero => intro x n o h; simp [chainRun] at h
  | succ f ih =>
    intro x n o h ps lg os
    rcases hs : step tid x with er | r
    · refine ⟨[ps.length], lg ++ [tid], os ++ [.err tid er], ?_⟩
      rw [runLoop_cons, loopTick_last step sc ps.length lg os ps (tid, x) rfl,
        runLoop_nil]
      simp [processOne, hs]
    · cases hc : sc r with
      | false =>
        refine ⟨[ps.length], lg ++ [tid], os ++ [.ok tid r], ?_⟩
        rw [runLoop_cons, loopTick_last step sc ps.length lg os ps (tid, x) rfl,
          runLoop_nil]
        simp [processOne, hs, hc]
      | true =>
        have h2 : ∃ w : Nat × Outcome α ε, chainRun step sc tid f r = some w := by
          simp only [chainRun, hs, hc, if_true] at h
          rcases Option.map_eq_some'.mp h with ⟨w, hw, _⟩
          exact ⟨w, hw⟩
        obtain ⟨⟨n2, o2⟩, hw⟩ := h2
        obtain ⟨sched2, lg2, os2, hrun⟩ := ih r n2 o2 hw ps (lg ++ [tid]) os
        refine ⟨ps.length :: sched2, lg2, os2, ?_⟩
        rw [runLoop_cons, loopTick_last step sc ps.length lg os ps (tid, x) rfl]
        have hpo : processOne step sc (tid, x) ps lg os =
            ⟨lg ++ [tid], os, ps ++ [(tid, r)]⟩ := by
          simp [processOne, hs, hc]
        rw [hpo]
        exact hrun

theorem drain_all :
    ∀ seeds : List (Nat × α),
      (∀ p ∈ seeds, ∃ f n o, chainRun step sc p.1 f p.2 = some (n, o)) →
      ∀ (lg : List Nat) (os : List (Outcome α ε)),
        ∃ sched : List Nat,
          (runLoop step sc sched ⟨lg, os, seeds⟩).pending = [] := by
  intro seeds
  induction seeds using List.reverseRecOn with
  | nil => intro _ lg os; exact ⟨[], rfl⟩
  | append_singleton ps q ih =>
    intro hall lg os
    obtain ⟨f, n, o, hq⟩ := hall q (by simp)
    obtain ⟨t, x⟩ := q
    obtain ⟨sched1, lg2, os2, h1⟩ := chain_drain step sc t f x n o hq ps lg os
    obtain ⟨sched2, h2⟩ := ih (fun pp hpp => hall pp (by simp [hpp])) lg2 os2
    refine ⟨sched1 ++ sched2, ?_⟩
    rw [runLoop_append, h1]
    exact h2

/-! Bridge lemmas between iterates and the chain. -/

theorem chainRun_step_error (tid : Nat) (fuel : Nat) (x : α) (er : ε)
    (hs : step tid x = .error er) :
    chainRun step sc tid (fuel + 1) x = some (1, .err tid er) := by
  simp [chainRun, hs]

theorem chainRun_step_true (tid : Nat) (fuel : Nat) (x r : α)
    (hs : step tid x = .ok r) (hc : sc r = true) :
    chainRun step sc tid (fuel + 1) x
      = (chainRun step sc tid fuel r).map (fun q => (q.1 + 1, q.2)) := by
  simp [chainRun, hs, hc]

theorem chainRun_step_false (tid : Nat) (fuel : Nat) (x r : α)
    (hs : step tid x = .ok r) (hc : sc r = false) :
    chainRun step sc tid (fuel + 1) x = some (1, .ok tid r) := by
  simp [chainRun, hs, hc]

theorem chainRun_of_stepN (tid : Nat) :
    ∀ (k : Nat) (x rfin : α),
      (∀ j, 1 ≤ j → j ≤ k →
        ∃ rj, stepN step tid j x = some rj ∧ sc rj = true) →
      stepN step tid (k + 1) x = some rfin → sc rfin = false →
      chainRun step sc tid (k + 1) x = some (k + 1, .ok tid rfin) := by
  intro k
  induction k with
  | zero =>
    intro x rfin _ hfin hstop
    rcases hs : step tid x with er | r
    · simp [stepN, hs] at hfin
    · simp [stepN, hs] at hfin
      subst hfin
      simp [chainRun, hs, hstop]
  | succ k ih =>
    intro x rfin hmid hfin hstop
    obtain ⟨r1, hr1, hc1⟩ := hmid 1 (by omega) (by omega)
    rcases hs : step tid x with er | r
    · simp [stepN, hs] at hr1
    · have hr : r = r1 := by simpa [stepN, hs] using hr1
      subst hr
      have hmid2 : ∀ j, 1 ≤ j → j ≤ k →
          ∃ rj, stepN step tid j r = some rj ∧ sc rj = true := by
        intro j h1 h2
        obtain ⟨rj, hj, hcj⟩ := hmid (j + 1) (by omega) (by omega)
        exact ⟨rj, by simpa [stepN, hs] using hj, hcj⟩
      have hfin2 : stepN step tid (k + 1) r = some rfin := by
        simpa [stepN, hs] using hfin
      have hch := ih r rfin hmid2 hfin2 hstop
      rw [chainRun_step_true step sc tid (k + 1) x r hs hc1, hch]
      rfl

theorem chainRun_of_stop (tid : Nat) (x : α) (hsc : ∀ r, sc r = false) :
    chainRun step sc tid 1 x = some (1, firstOutcome step tid x) := by
  rcases hs : step tid x with er | r
  · simp [chainRun, firstOutcome, hs]
  · simp [chainRun, firstOutcome, hs, hsc r]

theorem runLoop_stop_drains (hsc : ∀ r, sc r = false) :
    ∀ (sched : List Nat) (s : LoopState α ε),
      s.pending.length ≤ sched.length →
      (runLoop step sc sched s).pending = [] := by
  intro sched
  induction sched with
  | nil =>
    intro s h
    rw [runLoop_nil]
    simp at h
    simpa using h
  | cons e sched ih =>
    intro s h
    rw [runLoop_cons]
    rcases s with ⟨lg, os, pending⟩
    cases pending with
    | nil => rw [loopTick_nil]; exact ih ⟨lg, os, []⟩ (by simp)
    | cons q ps =>
      rw [loopTick_cons]
      have hlen : ((q :: ps).eraseIdx (min e ps.length)).length = ps.length := by
        have := List.length_eraseIdx_add_one (l := q :: ps)
          (i := min e ps.length) (min_sel_lt e q ps)
        simp at this
        omega
      simp only [List.length_cons, Nat.succ_le_succ_iff] at h
      rcases processOne_spec step sc ((q :: ps).getD (min e ps.length) q)
          ((q :: ps).eraseIdx (min e ps.length)) lg os with
        ⟨er, hs, he⟩ | ⟨r, hs, hc, he⟩ | ⟨r, hs, hc, he⟩
      · rw [he]
        apply ih
        simpa [hlen] using h
      · exact absurd hc (by simp [hsc r])
      · rw [he]
        apply ih
        simpa [hlen] using h

/-! The claims about the completion-driven work loop. -/

/-- C1: for every non-empty seed sequence whose per-task chains all
terminate (should_continue eventually returns false for every task), a
schedule exists on which the loop ends, and on every schedule on which
the loop ends the finite output contains exactly one terminal outcome
per seed item, matched to the seed identities as multisets. -/
theorem spec_C1_cardinality (step : Nat → α → Except ε α) (sc : α → Bool)
    (seeds : List (Nat × α)) (hne : seeds ≠ [])
    (hterm : ∀ p ∈ seeds, ∃ f n o, chainRun step sc p.1 f p.2 = some (n, o)) :
    (∃ sched : List Nat, (run step sc sched seeds).pending = []) ∧
    ∀ sched : List Nat, (run step sc sched seeds).pending = [] →
      (run step sc sched seeds).outs.length = seeds.length ∧
      List.Perm ((run step sc sched seeds).outs.map Outcome.tid)
        (seeds.map Prod.fst) := by
  constructor
  · obtain ⟨sched, h⟩ := drain_all step sc seeds hterm [] []
    exact ⟨sched, h⟩
  · intro sched h
    simp only [run] at h ⊢
    have hperm := runLoop_tids step sc sched ⟨[], [], seeds⟩ h
    simp only [List.map_nil, List.nil_append] at hperm
    constructor
    · have hlen := hperm.length_eq
      simpa using hlen
    · exact hperm

/-- C2: a task whose step invocation fails is surfaced as exactly one
tagged error terminal outcome carrying the identity of the task — never
dropped, never duplicated; the failing task is observed exactly j times
(no retry of the failed invocation); and the error outcome is invisible
to the consumer sub-sequence of every other identity. -/
theorem spec_C2_failure_surfaced (step : Nat → α → Except ε α) (sc : α → Bool)
    (seeds : List (Nat × α)) (sched : List Nat) (tid : Nat) (x : α)
    (er : ε) (j : Nat)
    (hnd : (seeds.map Prod.fst).Nodup) (hmem : (tid, x) ∈ seeds)
    (hfail : ∃ f, chainRun step sc tid f x = some (j, Outcome.err tid er))
    (hend : (run step sc sched seeds).pending = []) :
    outsFor tid (run step sc sched seeds).outs = [Outcome.err tid er] ∧
    (run step sc sched seeds).log.count tid = j ∧
    ∀ t, t ≠ tid →
      Outcome.err tid er ∉ outsFor t (run step sc sched seeds).outs := by
  obtain ⟨f0, hf0⟩ := hfail
  simp only [run] at hend ⊢
  obtain ⟨ih1, _⟩ := runLoop_resolve step sc sched ⟨[], [], seeds⟩
    (by simpa using hnd) hend
  obtain ⟨f, n, o, hch, hfil, hcnt⟩ := ih1 (tid, x) (by simpa using hmem)
  have huniq := chainRun_unique step sc tid f f0 x (n, o)
    (j, Outcome.err tid er) hch hf0
  have hn : n = j := congrArg Prod.fst huniq
  have ho : o = Outcome.err tid er := congrArg Prod.snd huniq
  subst hn
  subst ho
  refine ⟨?_, ?_, ?_⟩
  · simpa [outsFor] using hfil
  · simpa using hcnt
  · intro t ht hmem2
    rcases List.mem_filter.mp hmem2 with ⟨_, hcond⟩
    simp [Outcome.tid] at hcond
    exact ht hcond.symm

/-- C4: with distinct seed identities, at every reachable state of the
loop (the state after an arbitrary schedule of completions) the pending
identities are distinct: no task ever has two outstanding submissions at
once.  Resubmission of step N+1 happens in the same transition that
observes the result of step N, so the count of outstanding submissions
per task never exceeds one. -/
theorem spec_C4_single_outstanding (step : Nat → α → Except ε α)
    (sc : α → Bool) (seeds : List (Nat × α))
    (hnd : (seeds.map Prod.fst).Nodup) :
    ∀ sched : List Nat,
      ((run step sc sched seeds).pending.map Prod.fst).Nodup ∧
      ∀ t : Nat, ((run step sc sched seeds).pending.map Prod.fst).count t ≤ 1 := by
  intro sched
  have h := runLoop_nodup step sc sched ⟨[], [], seeds⟩ (by simpa using hnd)
  exact ⟨h, fun t => List.nodup_iff_count_le_one.mp h t⟩

/-- C3: a task for which should_continue holds on its first k step
results and fails on the (k+1)-th emits its terminal result only after
exactly k+1 observed step invocations, and the consumer sub-sequence for
that identity is exactly the one terminal outcome — none of the k
intermediate results is ever emitted. -/
theorem spec_C3_intermediates_hidden (step : Nat → α → Except ε α)
    (sc : α → Bool) (seeds : List (Nat × α)) (sched : List Nat)
    (tid : Nat) (x : α) (k : Nat) (rfin : α)
    (hnd : (seeds.map Prod.fst).Nodup) (hmem : (tid, x) ∈ seeds)
    (hmid : ∀ j, 1 ≤ j → j ≤ k →
      ∃ rj, stepN step tid j x = some rj ∧ sc rj = true)
    (hfin : stepN step tid (k + 1) x = some rfin) (hstop : sc rfin = false)
    (hend : (run step sc sched seeds).pending = []) :
    (run step sc sched seeds).log.count tid = k + 1 ∧
    outsFor tid (run step sc sched seeds).outs = [Outcome.ok tid rfin] := by
  have hch0 : chainRun step sc tid (k + 1) x = some (k + 1, .ok tid rfin) :=
    chainRun_of_stepN step sc tid k x rfin hmid hfin hstop
  simp only [run] at hend ⊢
  obtain ⟨ih1, _⟩ := runLoop_resolve step sc sched ⟨[], [], seeds⟩
    (by simpa using hnd) hend
  obtain ⟨f, n, o, hch, hfil, hcnt⟩ := ih1 (tid, x) (by simpa using hmem)
  have huniq := chainRun_unique step sc tid f (k + 1) x (n, o)
    (k + 1, Outcome.ok tid rfin) hch hch0
  have hn : n = k + 1 := congrArg Prod.fst huniq
  have ho : o = Outcome.ok tid rfin := congrArg Prod.snd huniq
  subst hn
  subst ho
  constructor
  · simpa using hcnt
  · simpa [outsFor] using hfil

/-- C6: when should_continue returns false on every result, every task
terminates after exactly one step invocation — its first result (or its
first error) is emitted as the terminal outcome with no resubmission —
and any schedule at least as long as the seed list ends the run. -/
theorem spec_C6_always_stop (step : Nat → α → Except ε α) (sc : α → Bool)
    (seeds : List (Nat × α)) (hsc : ∀ r, sc r = false)
    (hnd : (seeds.map Prod.fst).Nodup) :
    (∀ sched : List Nat, (run step sc sched seeds).pending = [] →
      ∀ p ∈ seeds,
        outsFor p.1 (run step sc sched seeds).outs =
          [firstOutcome step p.1 p.2] ∧
        (run step sc sched seeds).log.count p.1 = 1) ∧
    (∀ sched : List Nat, seeds.length ≤ sched.length →
      (run step sc sched seeds).pending = []) := by
  constructor
  · intro sched hend pp hpp
    simp only [run] at hend ⊢
    obtain ⟨ih1, _⟩ := runLoop_resolve step sc sched ⟨[], [], seeds⟩
      (by simpa using hnd) hend
    obtain ⟨f, n, o, hch, hfil, hcnt⟩ := ih1 pp (by simpa using hpp)
    have huniq := chainRun_unique step sc pp.1 f 1 pp.2 (n, o)
      (1, firstOutcome step pp.1 pp.2) hch
      (chainRun_of_stop step sc pp.1 pp.2 hsc)
    have hn : n = 1 := congrArg Prod.fst huniq
    have ho : o = firstOutcome step pp.1 pp.2 := congrArg Prod.snd huniq
    subst hn
    subst ho
    constructor
    · simpa [outsFor] using hfil
    · simpa using hcnt
  · intro sched hlen
    exact runLoop_stop_drains step sc hsc sched ⟨[], [], seeds⟩
      (by simpa using hlen)

/-- C7: failure isolation — when the chain of task a ends in a step
failure while the chain of task b terminates with outcome ob, every
ended run still delivers exactly ob to the consumer of identity b (and
exactly the tagged error to the consumer of identity a); moreover, when
every chain of the seed set terminates, an ending schedule exists and
its output contains ob. -/
theorem spec_C7_failure_isolation (step : Nat → α → Except ε α)
    (sc : α → Bool) (seeds : List (Nat × α)) (a b : Nat) (xa xb : α)
    (ea : ε) (fa na fb nb : Nat) (ob : Outcome α ε)
    (hnd : (seeds.map Prod.fst).Nodup)
    (ha : (a, xa) ∈ seeds) (hb : (b, xb) ∈ seeds) (hab : a ≠ b)
    (hfa : chainRun step sc a fa xa = some (na, Outcome.err a ea))
    (hfb : chainRun step sc b fb xb = some (nb, ob))
    (hterm : ∀ p ∈ seeds, ∃ f n o, chainRun step sc p.1 f p.2 = some (n, o)) :
    (∀ sched : List Nat, (run step sc sched seeds).pending = [] →
      outsFor b (run step sc sched seeds).outs = [ob] ∧
      outsFor a (run step sc sched seeds).outs = [Outcome.err a ea]) ∧
    (∃ sched : List Nat, (run step sc sched seeds).pending = [] ∧
      ob ∈ (run step sc sched seeds).outs) := by
  have main : ∀ sched : List Nat, (run step sc sched seeds).pending = [] →
      outsFor b (run step sc sched seeds).outs = [ob] ∧
      outsFor a (run step sc sched seeds).outs = [Outcome.err a ea] := by
    intro sched hend
    simp only [run] at hend ⊢
    obtain ⟨ih1, _⟩ := runLoop_resolve step sc sched ⟨[], [], seeds⟩
      (by simpa using hnd) hend
    constructor
    · obtain ⟨f, n, o, hch, hfil, _⟩ := ih1 (b, xb) (by simpa using hb)
      have huniq := chainRun_unique step sc b f fb xb (n, o) (nb, ob) hch hfb
      have ho : o = ob := congrArg Prod.snd huniq
      subst ho
      simpa [outsFor] using hfil
    · obtain ⟨f, n, o, hch, hfil, _⟩ := ih1 (a, xa) (by simpa using ha)
      have huniq := chainRun_unique step sc a f fa xa (n, o)
        (na, Outcome.err a ea) hch hfa
      have ho : o = Outcome.err a ea := congrArg Prod.snd huniq
      subst ho
      simpa [outsFor] using hfil
  refine ⟨main, ?_⟩
  obtain ⟨sched, hend⟩ := drain_all step sc seeds hterm [] []
  have hend2 : (run step sc sched seeds).pending = [] := hend
  obtain ⟨hfb2, _⟩ := main sched hend2
  refine ⟨sched, hend2, ?_⟩
  have : ob ∈ outsFor b (run step sc sched seeds).outs := by
    rw [hfb2]; simp
  exact List.mem_of_mem_filter this

/-! The concrete C5 scenario: two walkers, deterministic step +1/2 in x,
continue while the squared distance from the origin is below 4. -/

/-- C5 step function: always add 1/2 to the x coordinate. -/
def walkStep : Nat → ℚ × ℚ → Except Unit (ℚ × ℚ) :=
  fun _ p => .ok (p.1 + 1 / 2, p.2)

/-- C5 predicate: continue while distance from the origin is below 2
(squared distance below 4), as in the notebook loop condition. -/
def walkContinue : ℚ × ℚ → Bool :=
  fun p => decide (p.1 * p.1 + p.2 * p.2 < 4)

/-- C5 seeds: two walkers with identities 0 and 1 at the origin. -/
def walkSeeds : List (Nat × (ℚ × ℚ)) := [(0, (0, 0)), (1, (0, 0))]

theorem walk_chain (t : Nat) :
    chainRun walkStep walkContinue t 4 ((0 : ℚ), (0 : ℚ))
      = some (4, Outcome.ok t ((2 : ℚ), (0 : ℚ))) := by
  have s1 : walkStep t ((0 : ℚ), (0 : ℚ)) = .ok (1 / 2, 0) := by
    norm_num [walkStep]
  have s2 : walkStep t ((1 / 2 : ℚ), (0 : ℚ)) = .ok (1, 0) := by
    norm_num [walkStep]
  have s3 : walkStep t ((1 : ℚ), (0 : ℚ)) = .ok (3 / 2, 0) := by
    norm_num [walkStep]
  have s4 : walkStep t ((3 / 2 : ℚ), (0 : ℚ)) = .ok (2, 0) := by
    norm_num [walkStep]
  have c1 : walkContinue ((1 / 2 : ℚ), (0 : ℚ)) = true := by
    simp only [walkContinue, decide_eq_true_eq]
    norm_num
  have c2 : walkContinue ((1 : ℚ), (0 : ℚ)) = true := by
    simp only [walkContinue, decide_eq_true_eq]
    norm_num
  have c3 : walkContinue ((3 / 2 : ℚ), (0 : ℚ)) = true := by
    simp only [walkContinue, decide_eq_true_eq]
    norm_num
  have c4 : walkContinue ((2 : ℚ), (0 : ℚ)) = false := by
    simp only [walkContinue, decide_eq_false_iff_not]
    norm_num
  rw [show (4 : Nat) = 3 + 1 from rfl,
    chainRun_step_true walkStep walkContinue t 3 _ _ s1 c1,
    show (3 : Nat) = 2 + 1 from rfl,
    chainRun_step_true walkStep walkContinue t 2 _ _ s2 c2,
    show (2 : Nat) = 1 + 1 from rfl,
    chainRun_step_true walkStep walkContinue t 1 _ _ s3 c3,
    show (1 : Nat) = 0 + 1 from rfl,
    chainRun_step_false walkStep walkContinue t 0 _ _ s4 c4]
  rfl

theorem perm_pair_of_filters {γ : Type} :
    ∀ (l : List γ) (pr : γ → Bool) (A B : γ), l.length = 2 →
      l.filter pr = [A] → l.filter (fun y => !(pr y)) = [B] →
      List.Perm l [A, B] := by
  intro l pr A B hlen hA hB
  obtain ⟨a, b, rfl⟩ : ∃ a b, l = [a, b] := by
    match l, hlen with
    | [a, b], _ => exact ⟨a, b, rfl⟩
  cases hpa : pr a <;> cases hpb : pr b <;>
    simp [List.filter_cons, hpa, hpb] at hA hB
  · subst hA
    subst hB
    exact List.Perm.swap b a []
  · subst hA
    subst hB
    exact List.Perm.refl _

/-- C5: in the concrete deterministic scenario (seeds (0,(0,0)) and
(1,(0,0)), step adding 1/2 to x, continue while distance from the origin
is below 2), every ended run emits exactly the outcomes (0, x=2) and
(1, x=2) — the positions pass through 1/2, 1, 3/2, 2 — with exactly 4
step invocations per task, regardless of completion order; and an ending
schedule exists. -/
theorem spec_C5_concrete_walk :
    (∀ sched : List Nat,
      (run walkStep walkContinue sched walkSeeds).pending = [] →
      List.Perm (run walkStep walkContinue sched walkSeeds).outs
        [Outcome.ok 0 ((2 : ℚ), (0 : ℚ)), Outcome.ok 1 ((2 : ℚ), (0 : ℚ))] ∧
      (run walkStep walkContinue sched walkSeeds).log.count 0 = 4 ∧
      (run walkStep walkContinue sched walkSeeds).log.count 1 = 4) ∧
    (∃ sched : List Nat,
      (run walkStep walkContinue sched walkSeeds).pending = []) := by
  have hnd : ((walkSeeds.map Prod.fst)).Nodup := by
    simp [walkSeeds]
  constructor
  · intro sched hend
    simp only [run] at hend ⊢
    obtain ⟨ih1, _⟩ := runLoop_resolve walkStep walkContinue sched
      ⟨[], [], walkSeeds⟩ (by simpa using hnd) hend
    have h0 := ih1 (0, ((0 : ℚ), (0 : ℚ))) (by simp [walkSeeds])
    have h1 := ih1 (1, ((0 : ℚ), (0 : ℚ))) (by simp [walkSeeds])
    obtain ⟨f0, n0, o0, hch0, hfil0, hcnt0⟩ := h0
    obtain ⟨f1, n1, o1, hch1, hfil1, hcnt1⟩ := h1
    have hu0 := chainRun_unique walkStep walkContinue 0 f0 4 (0, 0) (n0, o0)
      (4, Outcome.ok 0 ((2 : ℚ), (0 : ℚ))) hch0 (walk_chain 0)
    have hu1 := chainRun_unique walkStep walkContinue 1 f1 4 (0, 0) (n1, o1)
      (4, Outcome.ok 1 ((2 : ℚ), (0 : ℚ))) hch1 (walk_chain 1)
    have hn0 : n0 = 4 := congrArg Prod.fst hu0
    have ho0 : o0 = Outcome.ok 0 ((2 : ℚ), (0 : ℚ)) := congrArg Prod.snd hu0
    have hn1 : n1 = 4 := congrArg Prod.fst hu1
    have ho1 : o1 = Outcome.ok 1 ((2 : ℚ), (0 : ℚ)) := congrArg Prod.snd hu1
    subst hn0; subst ho0; subst hn1; subst ho1
    have htids := runLoop_tids walkStep walkContinue sched
      ⟨[], [], walkSeeds⟩ hend
    simp only [List.map_nil, List.nil_append] at htids
    have hlen : (runLoop walkStep walkContinue sched
        ⟨[], [], walkSeeds⟩).outs.length = 2 := by
      have := htids.length_eq
      simpa [walkSeeds] using this
    refine ⟨?_, by simpa using hcnt0, by simpa using hcnt1⟩
    have hAfil : (runLoop walkStep walkContinue sched
        ⟨[], [], walkSeeds⟩).outs.filter (fun o => o.tid == 0)
        = [Outcome.ok 0 ((2 : ℚ), (0 : ℚ))] := by
      simpa [outsFor] using hfil0
    have hBfil0 : (runLoop walkStep walkContinue sched
        ⟨[], [], walkSeeds⟩).outs.filter (fun o => o.tid == 1)
        = [Outcome.ok 1 ((2 : ℚ), (0 : ℚ))] := by
      simpa [outsFor] using hfil1
    have hmemtid : ∀ o ∈ (runLoop walkStep walkContinue sched
        ⟨[], [], walkSeeds⟩).outs, o.tid = 0 ∨ o.tid = 1 := by
      intro o ho
      have : o.tid ∈ (runLoop walkStep walkContinue sched
          ⟨[], [], walkSeeds⟩).outs.map Outcome.tid :=
        List.mem_map_of_mem Outcome.tid ho
      have := htids.subset this
      simpa [walkSeeds] using this
    have hBfil : (runLoop walkStep walkContinue sched
        ⟨[], [], walkSeeds⟩).outs.filter (fun o => !(o.tid == 0))
        = [Outcome.ok 1 ((2 : ℚ), (0 : ℚ))] := by
      rw [List.filter_congr (fun o ho => ?_), hBfil0]
      rcases hmemtid o ho with h | h <;> simp [h]
    exact perm_pair_of_filters _ (fun o => o.tid == 0) _ _ hlen hAfil hBfil
  · apply drain_all walkStep walkContinue walkSeeds
    intro p hp
    have hp2 : p = (0, ((0 : ℚ), (0 : ℚ))) ∨ p = (1, ((0 : ℚ), (0 : ℚ))) := by
      simpa [walkSeeds] using hp
    rcases hp2 with rfl | rfl
    · exact ⟨4, 4, Outcome.ok 0 ((2 : ℚ), (0 : ℚ)), walk_chain 0⟩
    · exact ⟨4, 4, Outcome.ok 1 ((2 : ℚ), (0 : ℚ)), walk_chain 1⟩

/-- C8: borrow returns exactly min(amount, current funds) and decrements
the funds by exactly the returned loan; starting from non-negative funds
and any sequence of non-negative amounts, the funds stay non-negative
after every stage of the sequence. -/
theorem spec_C8_bank_borrow (f0 : Int) (amts : List Int)
    (h0 : 0 ≤ f0) (hamts : ∀ a ∈ amts, 0 ≤ a) :
    (∀ (b : Bank) (a : Int), (b.borrow a).1 = min a b.funds ∧
      (b.borrow a).2.funds = b.funds - (b.borrow a).1) ∧
    (∀ pre suf : List Int, amts = pre ++ suf →
      0 ≤ (Bank.borrowAll ⟨f0⟩ pre).funds) := by
  have key : ∀ (l : List Int) (b : Bank), 0 ≤ b.funds →
      0 ≤ (b.borrowAll l).funds := by
    intro l
    induction l with
    | nil => intro b hb; exact hb
    | cons a rest ih =>
      intro b hb
      have hmin : min a b.funds ≤ b.funds := min_le_right a b.funds
      have hstep : 0 ≤ (b.borrow a).2.funds := by
        simp only [Bank.borrow]
        omega
      exact ih (b.borrow a).2 hstep
  exact ⟨fun b a => ⟨rfl, rfl⟩, fun pre suf heq => key pre ⟨f0⟩ h0⟩

/-- C9: sample returns only 0 or 1, and returns 1 exactly when the drawn
point lies strictly inside the unit circle; consequently the resulting
π estimate over any non-empty batch of draws lies in the closed interval
from 0 to 4. -/
theorem spec_C9_sample_estimate (pts : List (ℚ × ℚ)) (hne : pts ≠ []) :
    (∀ x y : ℚ, (sample x y = 1 ↔ x * x + y * y < 1) ∧
      (sample x y = 0 ∨ sample x y = 1)) ∧
    0 ≤ piEstimate (pts.map fun p => sample p.1 p.2) ∧
    piEstimate (pts.map fun p => sample p.1 p.2) ≤ 4 := by
  have hsample : ∀ x y : ℚ, (sample x y = 1 ↔ x * x + y * y < 1) ∧
      (sample x y = 0 ∨ sample x y = 1) := by
    intro x y
    by_cases h : x * x + y * y < 1
    · exact ⟨⟨fun _ => h, fun _ => by simp [sample, h]⟩, Or.inr (by simp [sample, h])⟩
    · refine ⟨⟨fun h1 => ?_, fun h1 => absurd h1 h⟩, Or.inl (by simp [sample, h])⟩
      simp [sample, h] at h1
  have hsum : ∀ l : List Nat, (∀ v ∈ l, v ≤ 1) → l.sum ≤ l.length := by
    intro l
    induction l with
    | nil => simp
    | cons v rest ih =>
      intro hv
      have h1 := hv v (by simp)
      have h2 := ih (fun w hw => hv w (by simp [hw]))
      simp only [List.sum_cons, List.length_cons]
      omega
  set l := pts.map fun p => sample p.1 p.2 with hl
  have hmem1 : ∀ v ∈ l, v ≤ 1 := by
    intro v hv
    rw [hl] at hv
    obtain ⟨p, _, rfl⟩ := List.mem_map.mp hv
    rcases (hsample p.1 p.2).2 with h | h <;> omega
  have hS : l.sum ≤ l.length := hsum l hmem1
  have hlenpos : 0 < l.length := by
    rw [hl]
    simpa using List.length_pos.mpr hne
  have hlenposQ : (0 : ℚ) < (l.length : ℚ) := by
    exact_mod_cast hlenpos
  refine ⟨hsample, ?_, ?_⟩
  · apply div_nonneg
    · positivity
    · positivity
  · rw [piEstimate, div_le_iff hlenposQ]
    have hSQ : (l.sum : ℚ) ≤ (l.length : ℚ) := by exact_mod_cast hS
    nlinarith

/-- C10: the threshold classifier is total with range contained in
0, 1, 2: prices strictly below 1200 map to 0, prices strictly above
11000 map to 2, and all remaining prices — both boundary values
included, since the source comparisons are strict — map to 1. -/
theorem spec_C10_threshold_classes (p : ℚ) :
    (threshold p = 0 ∨ threshold p = 1 ∨ threshold p = 2) ∧
    (p < 1200 → threshold p = 0) ∧
    (11000 < p → threshold p = 2) ∧
    (1200 ≤ p → p ≤ 11000 → threshold p = 1) ∧
    threshold 1200 = 1 ∧ threshold 11000 = 1 := by
  have ht : threshold p = if p < 1200 then 0 else if 11000 < p then 2 else 1 :=
    rfl
  refine ⟨?_, ?_, ?_, ?_, by decide, by decide⟩
  · rw [ht]
    by_cases h1 : p < 1200
    · simp [h1]
    · by_cases h2 : 11000 < p <;> simp [h1, h2]
  · intro h1
    rw [ht]
    simp [h1]
  · intro h2
    have h1 : ¬p < 1200 := by linarith
    rw [ht]
    simp [h1, h2]
  · intro hge hle
    have h1 : ¬p < 1200 := by linarith
    have h2 : ¬11000 < p := by linarith
    rw [ht]
    simp [h1, h2]

/-! Concrete instances used to witness the loop claims. -/

/-- An always-false continuation predicate. -/
def stopNow : Nat → Bool := fun _ => false

/-- A step function on natural payloads that increments. -/
def incStep : Nat → Nat → Except Unit Nat := fun _ x => .ok (x + 1)

/-- A step function that fails for identity 0 and increments otherwise. -/
def failZeroStep : Nat → Nat → Except Unit Nat :=
  fun t x => if t = 0 then .error () else .ok (x + 1)

/-- A predicate continuing while the payload is below 3. -/
def belowThree : Nat → Bool := fun x => decide (x < 3)

theorem spec_C1_witness :
    (([(0, 0), (1, 5)] : List (Nat × Nat)) ≠ []) ∧
    ((∃ sched : List Nat,
        (run incStep stopNow sched [(0, 0), (1, 5)]).pending = []) ∧
      ∀ sched : List Nat,
        (run incStep stopNow sched [(0, 0), (1, 5)]).pending = [] →
        (run incStep stopNow sched [(0, 0), (1, 5)]).outs.length
            = ([(0, 0), (1, 5)] : List (Nat × Nat)).length ∧
        List.Perm
          ((run incStep stopNow sched [(0, 0), (1, 5)]).outs.map Outcome.tid)
          (([(0, 0), (1, 5)] : List (Nat × Nat)).map Prod.fst)) :=
  ⟨by simp, spec_C1_cardinality incStep stopNow [(0, 0), (1, 5)] (by simp)
    (fun p hp => ⟨1, 1, Outcome.ok p.1 (p.2 + 1),
      chainRun_step_false incStep stopNow p.1 0 p.2 (p.2 + 1) rfl rfl⟩)⟩

theorem spec_C2_witness :
    ((([(0, 0), (1, 5)] : List (Nat × Nat)).map Prod.fst).Nodup ∧
      ((0, 0) ∈ ([(0, 0), (1, 5)] : List (Nat × Nat))) ∧
      chainRun failZeroStep stopNow 0 1 0 = some (1, Outcome.err 0 ()) ∧
      (run failZeroStep stopNow [0, 0] [(0, 0), (1, 5)]).pending = []) ∧
    (outsFor 0 (run failZeroStep stopNow [0, 0] [(0, 0), (1, 5)]).outs
        = [Outcome.err 0 ()] ∧
      (run failZeroStep stopNow [0, 0] [(0, 0), (1, 5)]).log.count 0 = 1 ∧
      ∀ t, t ≠ 0 → Outcome.err 0 () ∉
        outsFor t (run failZeroStep stopNow [0, 0] [(0, 0), (1, 5)]).outs) :=
  ⟨⟨by decide, by decide, by decide, by decide⟩,
    spec_C2_failure_surfaced failZeroStep stopNow [(0, 0), (1, 5)] [0, 0]
      0 0 () 1 (by decide) (by decide) ⟨1, by decide⟩ (by decide)⟩

theorem spec_C3_witness :
    ((([(0, 0)] : List (Nat × Nat)).map Prod.fst).Nodup ∧
      ((0, 0) ∈ ([(0, 0)] : List (Nat × Nat))) ∧
      stepN incStep 0 3 0 = some 3 ∧ belowThree 3 = false ∧
      (run incStep belowThree [0, 0, 0] [(0, 0)]).pending = []) ∧
    ((run incStep belowThree [0, 0, 0] [(0, 0)]).log.count 0 = 2 + 1 ∧
      outsFor 0 (run incStep belowThree [0, 0, 0] [(0, 0)]).outs
        = [Outcome.ok 0 3]) :=
  ⟨⟨by decide, by decide, by decide, by decide, by decide⟩,
    spec_C3_intermediates_hidden incStep belowThree [(0, 0)] [0, 0, 0]
      0 0 2 3 (by decide) (by decide)
      (by
        intro j h1 h2
        interval_cases j
        · exact ⟨1, by decide, by decide⟩
        · exact ⟨2, by decide, by decide⟩)
      (by decide) (by decide) (by decide)⟩

theorem spec_C4_witness :
    ((([(0, 0), (1, 5)] : List (Nat × Nat)).map Prod.fst).Nodup) ∧
    (((run incStep stopNow [0, 1, 0] [(0, 0), (1, 5)]).pending.map
        Prod.fst).Nodup ∧
      ∀ t : Nat, ((run incStep stopNow [0, 1, 0]
        [(0, 0), (1, 5)]).pending.map Prod.fst).count t ≤ 1) :=
  ⟨by decide,
    spec_C4_single_outstanding incStep stopNow [(0, 0), (1, 5)]
      (by decide) [0, 1, 0]⟩

theorem spec_C5_witness :
    ∃ sched : List Nat,
      (run walkStep walkContinue sched walkSeeds).pending = [] ∧
      List.Perm (run walkStep walkContinue sched walkSeeds).outs
        [Outcome.ok 0 ((2 : ℚ), (0 : ℚ)), Outcome.ok 1 ((2 : ℚ), (0 : ℚ))] ∧
      (run walkStep walkContinue sched walkSeeds).log.count 0 = 4 ∧
      (run walkStep walkContinue sched walkSeeds).log.count 1 = 4 := by
  obtain ⟨sched, h⟩ := spec_C5_concrete_walk.2
  obtain ⟨h1, h2, h3⟩ := spec_C5_concrete_walk.1 sched h
  exact ⟨sched, h, h1, h2, h3⟩

theorem spec_C6_witness :
    ((∀ r, stopNow r = false) ∧
      (([(0, 0), (1, 5)] : List (Nat × Nat)).map Prod.fst).Nodup) ∧
    ((∀ sched : List Nat,
        (run incStep stopNow sched [(0, 0), (1, 5)]).pending = [] →
        ∀ p ∈ ([(0, 0), (1, 5)] : List (Nat × Nat)),
          outsFor p.1 (run incStep stopNow sched [(0, 0), (1, 5)]).outs
            = [firstOutcome incStep p.1 p.2] ∧
          (run incStep stopNow sched [(0, 0), (1, 5)]).log.count p.1 = 1) ∧
      (∀ sched : List Nat,
        ([(0, 0), (1, 5)] : List (Nat × Nat)).length ≤ sched.length →
        (run incStep stopNow sched [(0, 0), (1, 5)]).pending = [])) :=
  ⟨⟨fun _ => rfl, by decide⟩,
    spec_C6_always_stop incStep stopNow [(0, 0), (1, 5)]
      (fun _ => rfl) (by decide)⟩

theorem spec_C7_witness :
    ((([(0, 0), (1, 5)] : List (Nat × Nat)).map Prod.fst).Nodup ∧
      (0, 0) ∈ ([(0, 0), (1, 5)] : List (Nat × Nat)) ∧
      (1, 5) ∈ ([(0, 0), (1, 5)] : List (Nat × Nat)) ∧ (0 : Nat) ≠ 1 ∧
      chainRun failZeroStep stopNow 0 1 0 = some (1, Outcome.err 0 ()) ∧
      chainRun failZeroStep stopNow 1 1 5 = some (1, Outcome.ok 1 6)) ∧
    ((∀ sched : List Nat,
        (run failZeroStep stopNow sched [(0, 0), (1, 5)]).pending = [] →
        outsFor 1 (run failZeroStep stopNow sched [(0, 0), (1, 5)]).outs
          = [Outcome.ok 1 6] ∧
        outsFor 0 (run failZeroStep stopNow sched [(0, 0), (1, 5)]).outs
          = [Outcome.err 0 ()]) ∧
      (∃ sched : List Nat,
        (run failZeroStep stopNow sched [(0, 0), (1, 5)]).pending = [] ∧
        Outcome.ok 1 6 ∈
          (run failZeroStep stopNow sched [(0, 0), (1, 5)]).outs)) :=
  ⟨⟨by decide, by decide, by decide, by decide, by decide, by decide⟩,
    spec_C7_failure_isolation failZeroStep stopNow [(0, 0), (1, 5)]
      0 1 0 5 () 1 1 1 1 (Outcome.ok 1 6) (by decide) (by decide) (by decide)
      (by decide) (by decide) (by decide)
      (by
        intro p hp
        have hp2 : p = (0, 0) ∨ p = (1, 5) := by simpa using hp
        rcases hp2 with rfl | rfl
        · exact ⟨1, 1, Outcome.err 0 (), by decide⟩
        · exact ⟨1, 1, Outcome.ok 1 6, by decide⟩)⟩

theorem spec_C8_witness :
    ((0 : Int) ≤ 1000 ∧ (∀ a ∈ ([600, 500, 500] : List Int), 0 ≤ a)) ∧
    ((∀ (b : Bank) (a : Int), (b.borrow a).1 = min a b.funds ∧
        (b.borrow a).2.funds = b.funds - (b.borrow a).1) ∧
      (∀ pre suf : List Int, ([600, 500, 500] : List Int) = pre ++ suf →
        0 ≤ (Bank.borrowAll ⟨1000⟩ pre).funds)) :=
  ⟨⟨by decide, by decide⟩,
    spec_C8_bank_borrow 1000 [600, 500, 500] (by decide) (by decide)⟩

theorem spec_C9_witness :
    (([((1 : ℚ) / 2, (1 : ℚ) / 2)] : List (ℚ × ℚ)) ≠ []) ∧
    ((∀ x y : ℚ, (sample x y = 1 ↔ x * x + y * y < 1) ∧
        (sample x y = 0 ∨ sample x y = 1)) ∧
      0 ≤ piEstimate ((([((1 : ℚ) / 2, (1 : ℚ) / 2)] : List (ℚ × ℚ))).map
          fun p => sample p.1 p.2) ∧
      piEstimate ((([((1 : ℚ) / 2, (1 : ℚ) / 2)] : List (ℚ × ℚ))).map
          fun p => sample p.1 p.2) ≤ 4) :=
  ⟨by simp, spec_C9_sample_estimate [((1 : ℚ) / 2, (1 : ℚ) / 2)] (by simp)⟩

theorem spec_C10_witness :
    (threshold 5000 = 0 ∨ threshold 5000 = 1 ∨ threshold 5000 = 2) ∧
    ((5000 : ℚ) < 1200 → threshold 5000 = 0) ∧
    ((11000 : ℚ) < 5000 → threshold 5000 = 2) ∧
    ((1200 : ℚ) ≤ 5000 → (5000 : ℚ) ≤ 11000 → threshold 5000 = 1) ∧
    threshold 1200 = 1 ∧ threshold 11000 = 1 :=
  spec_C10_threshold_classes 5000


end HppPart2
